import Mathlib

/-!
Verification of the python-driver normalizer: the annotation rule table
(`driver/normalizer/annotation.go`) together with the annotation engine and
position resolver it is built on.  The rule table is embedded directly from
the Go source; the generic engine (the SDK packages `uast/ann`,
`transformer/annotatter` and `transformer/positioner`, which are not part of
this repository) is modelled from the specification's description of the
traversal and position-resolution algorithms.
-/

namespace PyDriver

/-- Semantic role tags (`uast.Role` constants used by the rule table). -/
inductive Role where
  | File | Module | Expression | Binary | Operator | Left | Right
  | Equal | Not | LessThan | LessThanOrEqual | GreaterThan | GreaterThanOrEqual
  | Identical | Contains | Add | Substract | Multiply | Divide | Modulo
  | Incomplete | Bitwise | LeftShift | RightShift | Or | Xor | And | Boolean
  | Unary | Positive | Negative | Literal | String | Primitive | ByteString
  | Number | Set | List | Map | Key | Value | Tuple | Null
  | Function | Declaration | Argument | Name | Identifier | ArgsList | Call
  | Body | Qualified | Positional | Callee | Receiver | Assignment | Statement
  | Comment | Whitespace | Try | Catch | Finally | Else | Throw | Block | Scope
  | Return | Break | Continue | If | Then | Condition
  | Pathname | Alias | Type | Base | For | Iterator | Update | While
  | Noop | Assert | Visibility | World
  | Import
  deriving DecidableEq, Repr

/-- Modelled from the spec: predicates of the SDK `uast/ann` package (not in
this repository).  A predicate tests a node's kind identifier and the field
role of the edge by which the node was reached from its parent. -/
inductive Pred where
  | any
  | hasInternalType (kind : String)
  | hasInternalRole (role : String)
  | neg (p : Pred)
  deriving DecidableEq, Repr

/-- Modelled from the spec: predicate evaluation, pure.  `edge` is the field
role of the parent-to-child edge (`none` for the root node). -/
def matchPred : Pred → String → Option String → Bool
  | .any, _, _ => true
  | .hasInternalType k, kind, _ => kind == k
  | .hasInternalRole r, _, edge => edge == some r
  | .neg p, kind, edge => !(matchPred p kind edge)

/-- A rule: predicate, roles to attach on match, optional terminal error, and
nested rule groups scoped as self / children / descendants. -/
inductive Rule where
  | mk (pred : Pred) (roles : List Role) (err : Option String)
       (selfRules childRules descRules : List Rule)

def Rule.getPred : Rule → Pred
  | .mk p _ _ _ _ _ => p

def Rule.getRoles : Rule → List Role
  | .mk _ rs _ _ _ _ => rs

def Rule.getErr : Rule → Option String
  | .mk _ _ e _ _ _ => e

def Rule.getSelf : Rule → List Rule
  | .mk _ _ _ s _ _ => s

def Rule.getChild : Rule → List Rule
  | .mk _ _ _ _ c _ => c

def Rule.getDesc : Rule → List Rule
  | .mk _ _ _ _ _ d => d

/-- Builder mirroring the Go `On(...)` constructor. -/
def On (p : Pred) : Rule := .mk p [] none [] [] []

/-- Builder mirroring `.Roles(...)`. -/
def Rule.Roles : Rule → List Role → Rule
  | .mk p _ e s c d, rs => .mk p rs e s c d

/-- Builder mirroring `.Error(...)`. -/
def Rule.Error : Rule → String → Rule
  | .mk p rs _ s c d, e => .mk p rs (some e) s c d

/-- Builder mirroring `.Self(...)`. -/
def Rule.Self : Rule → List Rule → Rule
  | .mk p rs e _ c d, s => .mk p rs e s c d

/-- Builder mirroring `.Children(...)`. -/
def Rule.Children : Rule → List Rule → Rule
  | .mk p rs e s _ d, c => .mk p rs e s c d

/-- Builder mirroring `.Descendants(...)`. -/
def Rule.Descendants : Rule → List Rule → Rule
  | .mk p rs e s c _, d => .mk p rs e s c d

/-- A native AST node: kind identifier, optional literal token, optional
1-based line and 0-based column, and an ordered list of (field role, child)
edges. -/
inductive NNode where
  | mk (kind : String) (token : Option String) (line col : Option Nat)
       (children : List (String × NNode))

def NNode.kind : NNode → String
  | .mk k _ _ _ _ => k

def NNode.children : NNode → List (String × NNode)
  | .mk _ _ _ _ cs => cs

/-- An annotated node: a native node paired with its accumulated RoleSet. -/
inductive ANode where
  | mk (kind : String) (token : Option String) (line col : Option Nat)
       (roles : List Role) (children : List (String × ANode))

def ANode.kind : ANode → String
  | .mk k _ _ _ _ _ => k

def ANode.line : ANode → Option Nat
  | .mk _ _ l _ _ _ => l

def ANode.col : ANode → Option Nat
  | .mk _ _ _ c _ _ => c

def ANode.roles : ANode → List Role
  | .mk _ _ _ _ rs _ => rs

def ANode.children : ANode → List (String × ANode)
  | .mk _ _ _ _ _ cs => cs

/-- Modelled from the spec: collapse duplicate roles keeping the first
occurrence (insertion order meaningful, duplicates collapsed). -/
def dedupRoles (seen : List Role) : List Role → List Role
  | [] => []
  | r :: rest =>
    if r ∈ seen then dedupRoles seen rest
    else r :: dedupRoles (r :: seen) rest

mutual

/-- Modelled from the spec: evaluate one rule against one node (SDK
`uast/ann` evaluation, not in this repository).  A matching rule carrying a
terminal error aborts; otherwise a matching rule contributes its roles, its
`self` nested rules are re-evaluated against the same node, and its
`children`/`descendants` nested groups are collected for the traversal. -/
def applyRule (kind : String) (edge : Option String) :
    Rule → Except String (List Role × List Rule × List Rule)
  | .mk p roles err selfR childR descR =>
    if matchPred p kind edge then
      match err with
      | some e => .error e
      | none =>
        match applyRules kind edge selfR with
        | .error e => .error e
        | .ok (rs1, cs1, ds1) => .ok (roles ++ rs1, childR ++ cs1, descR ++ ds1)
    else .ok ([], [], [])
termination_by structural r => r

/-- Modelled from the spec: evaluate a rule scope's rules in declaration
order at one node; every matching rule contributes (non-exclusive). -/
def applyRules (kind : String) (edge : Option String) :
    List Rule → Except String (List Role × List Rule × List Rule)
  | [] => .ok ([], [], [])
  | r :: rest =>
    match applyRule kind edge r with
    | .error e => .error e
    | .ok (rs1, cs1, ds1) =>
      match applyRules kind edge rest with
      | .error e => .error e
      | .ok (rs2, cs2, ds2) => .ok (rs1 ++ rs2, cs1 ++ cs2, ds1 ++ ds2)
termination_by structural l => l

end

mutual

/-- Modelled from the spec: the depth-first pre-order traversal of the SDK
annotatter (not in this repository).  `here` are the rules scoped to this
node only (children-scope rules of the parent's matched rules, or the root
rule); `deep` are descendants-scope rules of ancestors, evaluated at this
node and at every node below it. -/
def annNode (here deep : List Rule) (edge : Option String) : NNode → Except String ANode
  | .mk kind tok line col children =>
    match applyRules kind edge (here ++ deep) with
    | .error e => .error e
    | .ok (rs, cs, ds) =>
      match annChildren cs (deep ++ ds) children with
      | .error e => .error e
      | .ok acs => .ok (.mk kind tok line col (dedupRoles [] rs) acs)
termination_by structural t => t

/-- Modelled from the spec: annotate the children of a node in declared order. -/
def annChildren (here deep : List Rule) : List (String × NNode) → Except String (List (String × ANode))
  | [] => .ok []
  | (e, c) :: rest =>
    match annNode here deep (some e) c with
    | .error er => .error er
    | .ok ac =>
      match annChildren here deep rest with
      | .error er => .error er
      | .ok acs => .ok ((e, ac) :: acs)
termination_by structural l => l

end

/-- Modelled from the spec: entry point `annotate(rootRule, nativeRoot)`. -/
def annotate (root : Rule) (t : NNode) : Except String ANode :=
  annNode [root] [] none t

/-! The rule table of `driver/normalizer/annotation.go`.  The `pyast` kind
constants (a package of plain identifiers, not in this repository) are
modelled as their identifier names. -/

-- Common for FunctionDef, AsyncFunctionDef and Lambda
def argumentsAnn : Rule :=
  ((On (.hasInternalType "Arguments")).Roles
      [.Function, .Declaration, .Incomplete, .Argument]).Children [
    (On (.hasInternalRole "args")).Roles
      [.Function, .Declaration, .Argument, .Name, .Identifier],
    (On (.hasInternalRole "vararg")).Roles
      [.Function, .Declaration, .Argument, .ArgsList, .Name, .Identifier],
    (On (.hasInternalRole "kwarg")).Roles
      [.Function, .Declaration, .Argument, .ArgsList, .Map, .Name, .Identifier],
    (On (.hasInternalRole "kwonlyargs")).Roles
      [.Function, .Declaration, .Argument, .ArgsList, .Map, .Name, .Identifier]]

-- Binary Expressions
def binOpOpRule : Rule :=
  (On (.hasInternalRole "op")).Roles [.Expression, .Binary, .Operator]

def binOpLeftRule : Rule :=
  (On (.hasInternalRole "left")).Roles [.Expression, .Binary, .Left]

def binOpRightRule : Rule :=
  (On (.hasInternalRole "right")).Roles [.Expression, .Binary, .Right]

def binOpRule : Rule :=
  ((On (.hasInternalType "BinOp")).Roles [.Expression, .Binary]).Children
    [binOpOpRule, binOpLeftRule, binOpRightRule]

-- Boolean operators (the adjacent source comment says the Binary role is not
-- applied to them, but the rules as written do carry it)
def andRule : Rule :=
  (On (.hasInternalType "And")).Roles [.Binary, .Operator, .Boolean, .And]

def orRule : Rule :=
  (On (.hasInternalType "Or")).Roles [.Binary, .Operator, .Boolean, .Or]

def notRule : Rule :=
  (On (.hasInternalType "Not")).Roles [.Binary, .Operator, .Boolean, .Not]

-- Comments and non significative whitespace
def sameLineNoopsRule : Rule :=
  (On (.hasInternalType "SameLineNoops")).Roles [.Comment]

def noopLinesRule : Rule :=
  (On (.hasInternalRole "lines")).Roles [.Comment]

def previousNoopsRule : Rule :=
  ((On (.hasInternalType "PreviousNoops")).Roles [.Whitespace]).Children [noopLinesRule]

def remainderNoopsRule : Rule :=
  ((On (.hasInternalType "RemainderNoops")).Roles [.Whitespace]).Children [noopLinesRule]

def yieldRule1 : Rule :=
  (On (.hasInternalType "Yield")).Roles [.Return, .Statement, .Incomplete]

def yieldRule2 : Rule :=
  (On (.hasInternalType "Yield")).Roles [.Literal, .List, .Expression, .Incomplete]

/-- The descendants-scope rule list of the `Module` rule, in declaration
order. -/
def moduleDescRules : List Rule := [
  binOpRule,
  -- Comparison operators
  (On (.hasInternalType "Eq")).Roles [.Binary, .Operator, .Equal],
  (On (.hasInternalType "NotEq")).Roles [.Binary, .Operator, .Equal, .Not],
  (On (.hasInternalType "Lt")).Roles [.Binary, .Operator, .LessThan],
  (On (.hasInternalType "LtE")).Roles [.Binary, .Operator, .LessThanOrEqual],
  (On (.hasInternalType "Gt")).Roles [.Binary, .Operator, .GreaterThan],
  (On (.hasInternalType "GtE")).Roles [.Binary, .Operator, .GreaterThanOrEqual],
  (On (.hasInternalType "Is")).Roles [.Binary, .Operator, .Identical],
  (On (.hasInternalType "IsNot")).Roles [.Binary, .Operator, .Identical, .Not],
  (On (.hasInternalType "In")).Roles [.Binary, .Operator, .Contains],
  (On (.hasInternalType "NotIn")).Roles [.Binary, .Operator, .Contains, .Not],
  -- Aritmetic operators
  (On (.hasInternalType "Add")).Roles [.Binary, .Operator, .Add],
  (On (.hasInternalType "Sub")).Roles [.Binary, .Operator, .Substract],
  (On (.hasInternalType "Mult")).Roles [.Binary, .Operator, .Multiply],
  (On (.hasInternalType "Div")).Roles [.Binary, .Operator, .Divide],
  (On (.hasInternalType "Mod")).Roles [.Binary, .Operator, .Modulo],
  (On (.hasInternalType "FloorDiv")).Roles [.Binary, .Operator, .Divide, .Incomplete],
  (On (.hasInternalType "Pow")).Roles [.Binary, .Operator, .Incomplete],
  (On (.hasInternalType "MatMult")).Roles [.Binary, .Operator, .Multiply, .Incomplete],
  -- Bitwise operators
  (On (.hasInternalType "LShift")).Roles [.Binary, .Operator, .Bitwise, .LeftShift],
  (On (.hasInternalType "RShift")).Roles [.Binary, .Operator, .Bitwise, .RightShift],
  (On (.hasInternalType "BitOr")).Roles [.Binary, .Operator, .Bitwise, .Or],
  (On (.hasInternalType "BitXor")).Roles [.Binary, .Operator, .Bitwise, .Xor],
  (On (.hasInternalType "BitAnd")).Roles [.Binary, .Operator, .Bitwise, .And],
  -- Boolean operators
  andRule,
  orRule,
  notRule,
  (On (.hasInternalType "UnaryOp")).Roles [.Binary, .Operator, .Unary, .Expression],
  -- Unary operators
  (On (.hasInternalType "Invert")).Roles [.Operator, .Unary, .Bitwise, .Not],
  (On (.hasInternalType "UAdd")).Roles [.Operator, .Unary, .Positive],
  (On (.hasInternalType "USub")).Roles [.Operator, .Unary, .Negative],
  -- Literals
  (On (.hasInternalType "Str")).Roles [.Literal, .String, .Expression, .Primitive],
  (On (.hasInternalType "StringLiteral")).Roles [.Literal, .String, .Expression, .Primitive],
  (On (.hasInternalType "Bytes")).Roles [.Literal, .ByteString, .Expression, .Primitive],
  ((On (.hasInternalType "Num")).Roles [.Literal, .Number, .Expression, .Primitive]).Children [
    (On (.hasInternalRole "n")).Roles [.Literal, .Number, .Expression]],
  (On (.hasInternalType "BoolLiteral")).Roles [.Literal, .Boolean, .Expression, .Primitive],
  -- another grouping node like "arguments"
  (On (.hasInternalType "BoolOp")).Roles [.Expression, .Boolean, .Incomplete],
  ((On (.hasInternalType "JoinedStr")).Roles [.Literal, .String, .Expression, .Primitive]).Children [
    (On (.hasInternalType "FormattedValue")).Roles [.Expression, .Incomplete]],
  (On (.hasInternalType "NoneLiteral")).Roles [.Literal, .Null, .Expression, .Primitive],
  (On (.hasInternalType "Set")).Roles [.Literal, .Set, .Expression, .Primitive],
  (On (.hasInternalType "List")).Roles [.Literal, .List, .Expression, .Primitive],
  ((On (.hasInternalType "Dict")).Roles [.Literal, .Map, .Expression, .Primitive]).Children [
    (On (.hasInternalRole "keys")).Roles [.Map, .Key],
    (On (.hasInternalRole "values")).Roles [.Map, .Value]],
  (On (.hasInternalType "Tuple")).Roles [.Literal, .Tuple, .Expression, .Primitive],
  ((On (.hasInternalType "FunctionDef")).Roles
    [.Function, .Declaration, .Name, .Identifier]).Children [argumentsAnn],
  ((On (.hasInternalType "AsyncFunctionDef")).Roles
    [.Function, .Declaration, .Name, .Identifier, .Incomplete]).Children [argumentsAnn],
  (On (.hasInternalType "FuncDecorators")).Roles [.Function, .Declaration, .Call, .Incomplete],
  (On (.hasInternalType "FuncDefBody")).Roles [.Function, .Declaration, .Body],
  (On (.hasInternalType "ArgumentDefaults")).Roles
    [.Function, .Declaration, .Argument, .Value, .Incomplete],
  (On (.hasInternalType "AsyncFuncDecorators")).Roles [.Function, .Declaration, .Call, .Incomplete],
  (On (.hasInternalType "AsyncFuncDefBody")).Roles [.Function, .Declaration, .Body],
  ((On (.hasInternalType "Lambda")).Roles
    [.Function, .Declaration, .Expression, .Incomplete]).Children [
    (On (.hasInternalType "LambdaBody")).Roles [.Function, .Declaration, .Body],
    argumentsAnn],
  ((On (.hasInternalType "Attribute")).Roles [.Identifier, .Expression]).Children [
    (On (.hasInternalType "Name")).Roles [.Identifier, .Qualified]],
  ((On (.hasInternalType "Call")).Roles [.Function, .Call, .Expression]).Children [
    (On (.hasInternalRole "args")).Roles [.Function, .Call, .Positional, .Argument, .Name],
    ((On (.hasInternalRole "keywords")).Roles [.Function, .Call, .Argument, .Name]).Children [
      (On (.hasInternalRole "value")).Roles [.Argument, .Value]],
    (On (.hasInternalRole "func")).Self [
      (On (.hasInternalType "Name")).Roles [.Call, .Callee],
      ((On (.hasInternalType "Attribute")).Roles [.Call, .Callee]).Children [
        (On (.hasInternalRole "value")).Roles [.Call, .Receiver]]]],
  ((On (.hasInternalType "Assign")).Roles [.Binary, .Assignment, .Expression]).Children [
    (On (.hasInternalRole "targets")).Roles [.Left],
    (On (.hasInternalRole "value")).Roles [.Right]],
  ((On (.hasInternalType "AugAssign")).Roles
    [.Operator, .Binary, .Assignment, .Statement]).Children [
    (On (.hasInternalRole "op")).Roles [.Operator, .Binary],
    (On (.hasInternalRole "target")).Roles [.Left],
    (On (.hasInternalRole "value")).Roles [.Right]],
  (On (.hasInternalType "Expression")).Roles [.Expression],
  (On (.hasInternalType "Expr")).Roles [.Expression],
  (On (.hasInternalType "Name")).Roles [.Identifier, .Expression],
  sameLineNoopsRule,
  previousNoopsRule,
  remainderNoopsRule,
  (On (.hasInternalType "Constant")).Roles [.Identifier, .Expression],
  ((On (.hasInternalType "Try")).Roles [.Try, .Statement]).Children [
    (On (.hasInternalType "TryBody")).Roles [.Try, .Body],
    (On (.hasInternalType "TryFinalBody")).Roles [.Try, .Finally],
    (On (.hasInternalType "TryHandlers")).Roles [.Try, .Catch],
    (On (.hasInternalType "TryElse")).Roles [.Try, .Body, .Else]],
  (On (.hasInternalType "TryExcept")).Roles [.Try, .Catch, .Statement],
  (On (.hasInternalType "ExceptHandler")).Roles [.Try, .Catch, .Statement],
  (On (.hasInternalType "ExceptHandlerName")).Roles [.Try, .Catch, .Identifier],
  (On (.hasInternalType "TryFinally")).Roles [.Try, .Finally, .Statement],
  (On (.hasInternalType "Raise")).Roles [.Throw, .Statement],
  (On (.hasInternalType "With")).Roles [.Block, .Scope, .Statement],
  (On (.hasInternalType "WithBody")).Roles [.Block, .Scope, .Expression, .Incomplete],
  (On (.hasInternalType "WithItems")).Roles [.Identifier, .Expression, .Incomplete],
  (On (.hasInternalType "AsyncWith")).Roles [.Block, .Scope, .Statement, .Incomplete],
  (On (.hasInternalType "Withitem")).Roles [.Identifier, .Incomplete],
  (On (.hasInternalType "Return")).Roles [.Return, .Statement],
  (On (.hasInternalType "Break")).Roles [.Break, .Statement],
  (On (.hasInternalType "Continue")).Roles [.Continue, .Statement],
  -- Parent of all comparisons
  ((On (.hasInternalType "Compare")).Roles [.Expression, .Binary]).Children [
    (On (.hasInternalType "CompareOps")).Roles [.Expression],
    (On (.hasInternalRole "left")).Roles [.Expression, .Left],
    (On (.hasInternalType "CompareComparators")).Roles [.Expression, .Right]],
  ((On (.hasInternalType "If")).Roles [.If, .Statement]).Children [
    (On (.hasInternalType "IfBody")).Roles [.If, .Body, .Then],
    (On (.hasInternalRole "test")).Roles [.If, .Condition],
    (On (.hasInternalType "IfElse")).Roles [.If, .Body, .Else]],
  ((On (.hasInternalType "IfExp")).Roles [.If, .Expression]).Children [
    (On (.hasInternalRole "body")).Roles [.If, .Body, .Then],
    (On (.hasInternalRole "test")).Roles [.If, .Condition],
    (On (.hasInternalRole "orelse")).Roles [.If, .Body, .Else]],
  (On (.hasInternalType "Import")).Roles [.Import, .Declaration, .Statement],
  (On (.hasInternalType "Alias")).Roles [.Import, .Pathname, .Identifier],
  (On (.hasInternalType "ImportFromModule")).Roles [.Import, .Pathname, .Identifier],
  (On (.hasInternalType "AliasAsName")).Roles [.Import, .Alias, .Identifier],
  (On (.hasInternalType "ImportFrom")).Roles [.Import, .Declaration, .Statement],
  ((On (.hasInternalType "ClassDef")).Roles
    [.Type, .Declaration, .Identifier, .Statement]).Children [
    (On (.hasInternalType "ClassDefDecorators")).Roles [.Type, .Call, .Incomplete],
    (On (.hasInternalType "ClassDefBody")).Roles [.Type, .Declaration, .Body],
    (On (.hasInternalType "ClassDefBases")).Roles [.Type, .Declaration, .Base],
    ((On (.hasInternalType "ClassDefKeywords")).Roles [.Incomplete]).Children [
      (On (.hasInternalType "Keyword")).Roles [.Identifier, .Incomplete]]],
  ((On (.hasInternalType "For")).Roles [.For, .Iterator, .Statement]).Children [
    (On (.hasInternalType "ForBody")).Roles [.For, .Body],
    (On (.hasInternalRole "iter")).Roles [.For, .Expression],
    (On (.hasInternalRole "target")).Roles [.For, .Update],
    (On (.hasInternalType "ForElse")).Roles [.For, .Body, .Else]],
  ((On (.hasInternalType "AsyncFor")).Roles
    [.For, .Iterator, .Statement, .Incomplete]).Children [
    (On (.hasInternalType "AsyncForBody")).Roles [.For, .Body],
    (On (.hasInternalRole "iter")).Roles [.For, .Expression],
    (On (.hasInternalRole "target")).Roles [.For, .Update],
    (On (.hasInternalType "AsyncForElse")).Roles [.For, .Body, .Else]],
  ((On (.hasInternalType "While")).Roles [.While, .Statement]).Children [
    (On (.hasInternalType "WhileBody")).Roles [.While, .Body],
    (On (.hasInternalRole "test")).Roles [.While, .Condition],
    (On (.hasInternalType "WhileElse")).Roles [.While, .Body, .Else]],
  (On (.hasInternalType "Pass")).Roles [.Noop, .Statement],
  (On (.hasInternalType "Assert")).Roles [.Assert, .Statement],
  ((On (.hasInternalType "Exec")).Roles [.Function, .Call, .Expression]).Children [
    (On (.hasInternalRole "body")).Roles [.Call, .Argument, .Positional],
    (On (.hasInternalRole "globals")).Roles [.Call, .Argument, .Positional],
    (On (.hasInternalRole "locals")).Roles [.Call, .Argument, .Positional]],
  ((On (.hasInternalType "Print")).Roles
    [.Function, .Call, .Callee, .Identifier, .Expression]).Children [
    (On (.hasInternalRole "dest")).Roles [.Call, .Argument, .Positional],
    (On (.hasInternalRole "nl")).Roles [.Call, .Argument, .Positional],
    ((On (.hasInternalRole "values")).Roles [.Call, .Argument, .Positional]).Children [
      (On .any).Roles [.Call, .Argument, .Positional]]],
  (On (.hasInternalType "AnnAssign")).Roles
    [.Operator, .Binary, .Assignment, .Comment, .Incomplete],
  (On (.hasInternalRole "annotation")).Roles [.Comment, .Incomplete],
  (On (.hasInternalRole "returns")).Roles [.Comment, .Incomplete],
  (On (.hasInternalType "Ellipsis")).Roles [.Identifier, .Incomplete],
  (On (.hasInternalType "ListComp")).Roles [.List, .For, .Expression],
  (On (.hasInternalType "DictComp")).Roles [.Map, .For, .Expression],
  (On (.hasInternalType "SetComp")).Roles [.Set, .For, .Expression],
  ((On (.hasInternalType "Comprehension")).Roles
    [.For, .Iterator, .Expression, .Incomplete]).Children [
    (On (.hasInternalRole "iter")).Roles [.For, .Update, .Statement],
    (On (.hasInternalRole "target")).Roles [.For, .Expression],
    (On (.hasInternalType "Compare")).Roles [.If, .Condition]],
  (On (.hasInternalType "Delete")).Roles [.Statement, .Incomplete],
  (On (.hasInternalType "Await")).Roles [.Statement, .Incomplete],
  (On (.hasInternalType "Global")).Roles [.Statement, .Visibility, .World, .Incomplete],
  (On (.hasInternalType "Nonlocal")).Roles [.Statement, .Visibility, .Module, .Incomplete],
  yieldRule1,
  (On (.hasInternalType "YieldFrom")).Roles [.Return, .Statement, .Incomplete],
  yieldRule2,
  (On (.hasInternalType "Subscript")).Roles [.Expression, .Incomplete],
  (On (.hasInternalType "Index")).Roles [.Expression, .Incomplete],
  (On (.hasInternalType "Slice")).Roles [.Expression, .Incomplete],
  (On (.hasInternalType "ExtSlice")).Roles [.Expression, .Incomplete]]

/-- The root-validation rule: a root whose kind is not `Module` is a
structural error. -/
def rootErrorRule : Rule :=
  (On (.neg (.hasInternalType "Module"))).Error "root must be uast.Module"

/-- The `Module` rule: attaches `File`/`Module` to the root and opens the
descendants scope over the whole tree. -/
def moduleRule : Rule :=
  ((On (.hasInternalType "Module")).Roles [.File, .Module]).Descendants moduleDescRules

/-- `AnnotationRules` describes how a UAST should be annotated with roles
(`driver/normalizer/annotation.go`). -/
def AnnotationRules : Rule :=
  (On .any).Self [rootErrorRule, moduleRule]

/-! Position resolution, modelled from the spec (the SDK
`positioner.NewFillOffsetFromLineCol` transformer is not in this
repository): line/column hints are converted to absolute byte offsets,
columns clamped to the line length; a node lacking a hint, or whose line is
out of range of the source, inherits the resolved offset of its nearest
positioned ancestor. -/

/-- Length of the first line of a character suffix (chars before the first
line terminator). -/
def lineLenAt : List Char → Nat
  | [] => 0
  | c :: r => if c = '\n' then 0 else lineLenAt r + 1

/-- Drop the first line (including its terminator); `none` when the suffix
holds no terminator. -/
def dropLine : List Char → Option (List Char)
  | [] => none
  | c :: r => if c = '\n' then some r else dropLine r

/-- Modelled from the spec: the line-start offset table, as a function from a
1-based line number to the byte offset of the line start paired with the
remaining source suffix. -/
def lineSuffix (src : List Char) : Nat → Option (Nat × List Char)
  | 0 => none
  | 1 => some (0, src)
  | n + 2 =>
    match lineSuffix src (n + 1) with
    | none => none
    | some (off, s) =>
      match dropLine s with
      | none => none
      | some s' => some (off + (lineLenAt s + 1), s')

/-- Modelled from the spec: resolve a 1-based line and 0-based column to a
byte offset; the column is clamped to the line length; an out-of-range line
yields `none`. -/
def resolvePos (src : List Char) (line col : Nat) : Option Nat :=
  match lineSuffix src line with
  | none => none
  | some (off, s) => if s.isEmpty then none else some (off + min col (lineLenAt s))

/-- A positioned node: an annotated node whose resolved byte offset is final. -/
inductive PNode where
  | mk (kind : String) (token : Option String) (offset : Nat)
       (roles : List Role) (children : List (String × PNode))

def PNode.offset : PNode → Nat
  | .mk _ _ o _ _ => o

def PNode.roles : PNode → List Role
  | .mk _ _ _ rs _ => rs

def PNode.children : PNode → List (String × PNode)
  | .mk _ _ _ _ cs => cs

mutual

/-- Modelled from the spec: the offset-filling pass.  `inh` is the resolved
offset of the nearest positioned ancestor (0 at the root). -/
def fillNode (src : List Char) (inh : Nat) : ANode → PNode
  | .mk kind tok line col rs children =>
    match line, col with
    | some l, some c =>
      match resolvePos src l c with
      | some o => .mk kind tok o rs (fillChildren src o children)
      | none => .mk kind tok inh rs (fillChildren src inh children)
    | _, _ => .mk kind tok inh rs (fillChildren src inh children)
termination_by structural a => a

/-- Modelled from the spec: fill the children of a node in declared order. -/
def fillChildren (src : List Char) (inh : Nat) : List (String × ANode) → List (String × PNode)
  | [] => []
  | (e, a) :: rest => (e, fillNode src inh a) :: fillChildren src inh rest
termination_by structural l => l

end

/-- The `Transformers` pipeline of `annotation.go`: annotatter with
`AnnotationRules`, then `FillOffsetFromLineCol`. -/
def pipeline (t : NNode) (src : String) : Except String PNode :=
  match annotate AnnotationRules t with
  | .error e => .error e
  | .ok a => .ok (fillNode src.data 0 a)

/-! Observation helpers used to state the properties. -/

/-- Subnode of a native tree at child index `i` followed by path `p`,
together with the field role of the edge reaching it. -/
def getSubN : NNode → Nat → List Nat → Option (String × NNode)
  | t, i, [] => (NNode.children t).get? i
  | t, i, j :: p =>
    match (NNode.children t).get? i with
    | none => none
    | some (_, c) => getSubN c j p
termination_by structural _ _ p => p

/-- Subnode of an annotated tree at child index `i` followed by path `p`. -/
def getSubA : ANode → Nat → List Nat → Option (String × ANode)
  | t, i, [] => (ANode.children t).get? i
  | t, i, j :: p =>
    match (ANode.children t).get? i with
    | none => none
    | some (_, c) => getSubA c j p
termination_by structural _ _ p => p

mutual

/-- Erase the annotations of an annotated tree, recovering a native tree. -/
def stripRoles : ANode → NNode
  | .mk k tok line col _ children => .mk k tok line col (stripRolesL children)
termination_by structural a => a

def stripRolesL : List (String × ANode) → List (String × NNode)
  | [] => []
  | (e, a) :: rest => (e, stripRoles a) :: stripRolesL rest
termination_by structural l => l

end

mutual

/-- Pre-order list of the role lists of an annotated tree. -/
def preRolesA : ANode → List (List Role)
  | .mk _ _ _ _ rs children => rs :: preRolesAL children
termination_by structural a => a

def preRolesAL : List (String × ANode) → List (List Role)
  | [] => []
  | (_, a) :: rest => preRolesA a ++ preRolesAL rest
termination_by structural l => l

end

mutual

/-- Pre-order list of the byte offsets of a positioned tree. -/
def preOffP : PNode → List Nat
  | .mk _ _ o _ children => o :: preOffPL children
termination_by structural a => a

def preOffPL : List (String × PNode) → List Nat
  | [] => []
  | (_, a) :: rest => preOffP a ++ preOffPL rest
termination_by structural l => l

end

mutual

/-- Pre-order list of the (line, column) hints of an annotated tree, with 0
standing in for an absent hint. -/
def prePosA : ANode → List (Nat × Nat)
  | .mk _ _ line col _ children => (line.getD 0, col.getD 0) :: prePosAL children
termination_by structural a => a

def prePosAL : List (String × ANode) → List (Nat × Nat)
  | [] => []
  | (_, a) :: rest => prePosA a ++ prePosAL rest
termination_by structural l => l

end

mutual

/-- Every node of the tree carries a line/column hint that resolves against
`src`. -/
def allPosValid (src : List Char) : ANode → Bool
  | .mk _ _ line col _ children =>
    (match line, col with
     | some l, some c => (resolvePos src l c).isSome
     | _, _ => false) && allPosValidL src children
termination_by structural a => a

def allPosValidL (src : List Char) : List (String × ANode) → Bool
  | [] => true
  | (_, a) :: rest => allPosValid src a && allPosValidL src rest
termination_by structural l => l

end

mutual

/-- No node of the tree carries a line or a column hint. -/
def noPos : ANode → Bool
  | .mk _ _ line col _ children => line.isNone && col.isNone && noPosL children
termination_by structural a => a

def noPosL : List (String × ANode) → Bool
  | [] => true
  | (_, a) :: rest => noPos a && noPosL rest
termination_by structural l => l

end

/-- Duplicate-freedom of a role list, computably. -/
def nodupRoles : List Role → Bool
  | [] => true
  | r :: rest => decide (r ∉ rest) && nodupRoles rest

mutual

/-- Every rule in sight carries no terminal error. -/
def errFree : Rule → Bool
  | .mk _ _ err s c d => err.isNone && errFreeL s && errFreeL c && errFreeL d
termination_by structural r => r

def errFreeL : List Rule → Bool
  | [] => true
  | r :: rest => errFree r && errFreeL rest
termination_by structural l => l

end

/-- Lexicographic order on (line, column) pairs. -/
def lexLe (p q : Nat × Nat) : Prop :=
  p.1 < q.1 ∨ (p.1 = q.1 ∧ p.2 ≤ q.2)

mutual

/-- Pre-order list of the role lists of a positioned tree. -/
def preRolesP : PNode → List (List Role)
  | .mk _ _ _ rs children => rs :: preRolesPL children
termination_by structural a => a

def preRolesPL : List (String × PNode) → List (List Role)
  | [] => []
  | (_, a) :: rest => preRolesP a ++ preRolesPL rest
termination_by structural l => l

end

/-! Example trees used by the witnesses. -/

def exBinOpSub : NNode :=
  .mk "BinOp" none none none [("left", .mk "Num" none none none []),
    ("op", .mk "Add" none none none []), ("right", .mk "Num" none none none [])]

def exBinOpTree : NNode := .mk "Module" none none none [("body", exBinOpSub)]

def exComment : NNode := .mk "CommentText" none none none []

def exPrevNoops : NNode := .mk "PreviousNoops" none none none [("lines", exComment)]

def exIfNode : NNode := .mk "If" none none none [("body", exPrevNoops)]

def exNoopsTree : NNode :=
  .mk "Module" none none none [("stmt", exIfNode),
    ("extra", .mk "SameLineNoops" none none none [])]

def exYieldTree : NNode :=
  .mk "Module" none none none [("b", .mk "Expr" none none none
    [("value", .mk "Yield" none none none [])])]

def exBoolTree : NNode :=
  .mk "Module" none none none [("b", .mk "BoolOp" none none none
    [("op", .mk "And" none none none []), ("values", .mk "Or" none none none []),
     ("x", .mk "Not" none none none [])])]

def exNoPosA : ANode :=
  .mk "Module" none none none [] [("b", .mk "Y" none none none [] [])]

/-- A `Module` tree whose root is positioned after its child: line hints are
not pre-order monotone. -/
def cexPosTree : NNode :=
  .mk "Module" none (some 2) (some 0) [("s", .mk "Pass" none (some 1) (some 0) [])]

/-- The pipeline output on `cexPosTree` with source "a\nb". -/
def cexPosOut : PNode :=
  .mk "Module" none 2 [.File, .Module]
    [("s", .mk "Pass" none 0 [.Noop, .Statement] [])]

/-- An annotated tree with valid, pre-order monotone position hints. -/
def exPosA : ANode :=
  .mk "Module" none (some 1) (some 0) []
    [("s", .mk "Pass" none (some 1) (some 2) [] []),
     ("t", .mk "Pass" none (some 2) (some 0) [] [])]

/-! Basic lemmas about role deduplication and error-free rule lists. -/

theorem dedupRoles_mem (l : List Role) :
    ∀ seen x, x ∈ dedupRoles seen l ↔ x ∈ l ∧ x ∉ seen := by
  induction l with
  | nil => simp [dedupRoles]
  | cons r rest ih =>
    intro seen x
    by_cases hr : r ∈ seen
    · simp only [dedupRoles, if_pos hr, ih]
      constructor
      · rintro ⟨hx, hs⟩
        exact ⟨List.mem_cons_of_mem _ hx, hs⟩
      · rintro ⟨hx, hs⟩
        rcases List.mem_cons.mp hx with h | h
        · exact absurd (h ▸ hr) hs
        · exact ⟨h, hs⟩
    · simp only [dedupRoles, if_neg hr]
      constructor
      · intro hx
        rcases List.mem_cons.mp hx with h | h
        · exact ⟨h ▸ List.mem_cons_self _ _, h ▸ hr⟩
        · rcases (ih _ _).mp h with ⟨h1, h2⟩
          refine ⟨List.mem_cons_of_mem _ h1, fun hc => h2 (List.mem_cons_of_mem _ hc)⟩
      · rintro ⟨hx, hs⟩
        rcases List.mem_cons.mp hx with h | h
        · exact h ▸ List.mem_cons_self _ _
        · by_cases hxr : x = r
          · exact hxr ▸ List.mem_cons_self _ _
          · exact List.mem_cons_of_mem _ ((ih _ _).mpr
              ⟨h, fun hc => by
                rcases List.mem_cons.mp hc with h' | h'
                · exact hxr h'
                · exact hs h'⟩)

theorem dedupRoles_nodup (l : List Role) : ∀ seen, (dedupRoles seen l).Nodup := by
  induction l with
  | nil => intro seen; simp [dedupRoles]
  | cons r rest ih =>
    intro seen
    by_cases hr : r ∈ seen
    · simpa [dedupRoles, if_pos hr] using ih seen
    · simp only [dedupRoles, if_neg hr]
      refine List.nodup_cons.mpr ⟨fun hc => ?_, ih _⟩
      rcases (dedupRoles_mem rest _ r).mp hc with ⟨_, h2⟩
      exact h2 (List.mem_cons_self _ _)

theorem nodupRoles_iff (l : List Role) : nodupRoles l = true ↔ l.Nodup := by
  induction l with
  | nil => simp [nodupRoles]
  | cons r rest ih => simp [nodupRoles, List.nodup_cons, ih]

theorem errFreeL_append (l1 l2 : List Rule) :
    errFreeL (l1 ++ l2) = (errFreeL l1 && errFreeL l2) := by
  induction l1 with
  | nil => simp [errFreeL]
  | cons r rest ih => simp [errFreeL, ih, Bool.and_assoc]

theorem errFreeL_mem {l : List Rule} {r : Rule} (h : errFreeL l = true) (hr : r ∈ l) :
    errFree r = true := by
  induction l with
  | nil => cases hr
  | cons hd tl ih =>
    simp only [errFreeL, Bool.and_eq_true] at h
    rcases List.mem_cons.mp hr with h' | h'
    · exact h' ▸ h.1
    · exact ih h.2 h'

/-! Lemmas about one-scope rule evaluation. -/

/-- A matching rule's contributions are contained in a successful one-rule
evaluation. -/
theorem applyRule_sub {k : String} {e : Option String} {r : Rule}
    {rs : List Role} {cs ds : List Rule}
    (h : applyRule k e r = .ok (rs, cs, ds))
    (hm : matchPred r.getPred k e = true) :
    r.getRoles ⊆ rs ∧ r.getChild ⊆ cs ∧ r.getDesc ⊆ ds := by
  rcases r with ⟨p, roles, err, s, c, d⟩
  simp only [Rule.getPred] at hm
  simp only [Rule.getRoles, Rule.getChild, Rule.getDesc]
  simp only [applyRule, if_pos hm] at h
  rcases err with _ | e'
  · rcases hs : applyRules k e s with _ | ⟨⟨rs1, cs1, ds1⟩⟩ <;> rw [hs] at h
    · cases h
    · cases h
      exact ⟨List.subset_append_left _ _, List.subset_append_left _ _,
        List.subset_append_left _ _⟩
  · cases h

/-- Non-exclusive matching: every rule of the scope whose predicate matches
contributes its roles and its nested children/descendants groups. -/
theorem applyRules_mem (k : String) (e : Option String) :
    ∀ (rules : List Rule) (rs : List Role) (cs ds : List Rule) (r : Rule),
      applyRules k e rules = .ok (rs, cs, ds) → r ∈ rules →
      matchPred r.getPred k e = true →
      r.getRoles ⊆ rs ∧ r.getChild ⊆ cs ∧ r.getDesc ⊆ ds := by
  intro rules
  induction rules with
  | nil => intro rs cs ds r _ hmem; cases hmem
  | cons hd tl ih =>
    intro rs cs ds r happ hmem hmatch
    simp only [applyRules] at happ
    rcases h1 : applyRule k e hd with _ | ⟨⟨rs1, cs1, ds1⟩⟩ <;> rw [h1] at happ
    · cases happ
    · rcases h2 : applyRules k e tl with _ | ⟨⟨rs2, cs2, ds2⟩⟩ <;> rw [h2] at happ
      · cases happ
      · cases happ
        rcases List.mem_cons.mp hmem with hr | hr
        · subst hr
          obtain ⟨a, b, c⟩ := applyRule_sub h1 hmatch
          exact ⟨a.trans (List.subset_append_left _ _),
            b.trans (List.subset_append_left _ _),
            c.trans (List.subset_append_left _ _)⟩
        · obtain ⟨a, b, c⟩ := ih rs2 cs2 ds2 r h2 hr hmatch
          exact ⟨a.trans (List.subset_append_right _ _),
            b.trans (List.subset_append_right _ _),
            c.trans (List.subset_append_right _ _)⟩

/-- On an error-free scope, rule evaluation always succeeds and produces
error-free nested scopes. -/
theorem applyRules_errFree (k : String) (e : Option String) (rules : List Rule)
    (h : errFreeL rules = true) :
    ∃ rs cs ds, applyRules k e rules = .ok (rs, cs, ds) ∧
      errFreeL cs = true ∧ errFreeL ds = true := by
  match rules with
  | [] => exact ⟨[], [], [], rfl, rfl, rfl⟩
  | Rule.mk p roles err s c d :: rest =>
    simp only [errFreeL, errFree, Bool.and_eq_true] at h
    obtain ⟨⟨⟨⟨herr, hs⟩, hcf⟩, hdf⟩, hrest⟩ := h
    obtain ⟨rs1, cs1, ds1, hap1, hc1, hd1⟩ := applyRules_errFree k e s hs
    obtain ⟨rs2, cs2, ds2, hap2, hc2, hd2⟩ := applyRules_errFree k e rest hrest
    rcases err with _ | e'
    · by_cases hm : matchPred p k e = true
      · refine ⟨roles ++ rs1 ++ rs2, c ++ cs1 ++ cs2, d ++ ds1 ++ ds2, ?_, ?_, ?_⟩
        · simp only [applyRules, applyRule, if_pos hm, hap1, hap2, List.append_assoc]
        · simp [errFreeL_append, hcf, hc1, hc2]
        · simp [errFreeL_append, hdf, hd1, hd2]
      · refine ⟨rs2, cs2, ds2, ?_, hc2, hd2⟩
        simp only [applyRules, applyRule, if_neg hm, hap2, List.nil_append]
    · simp at herr
termination_by sizeOf rules

/-! Lemmas about the traversal. -/

theorem annNode_ok_elim {here deep : List Rule} {edge : Option String}
    {k : String} {tok : Option String} {l c : Option Nat}
    {children : List (String × NNode)} {a : ANode}
    (h : annNode here deep edge (.mk k tok l c children) = .ok a) :
    ∃ rs cs ds acs, applyRules k edge (here ++ deep) = .ok (rs, cs, ds) ∧
      annChildren cs (deep ++ ds) children = .ok acs ∧
      a = .mk k tok l c (dedupRoles [] rs) acs := by
  simp only [annNode] at h
  split at h
  next => cases h
  next rs cs ds heq =>
    split at h
    next => cases h
    next acs heq2 =>
      cases h
      exact ⟨rs, cs, ds, acs, heq, heq2, rfl⟩

theorem annChildren_get {here deep : List Rule} :
    ∀ {l : List (String × NNode)} {al : List (String × ANode)} {i : Nat}
      {e : String} {c : NNode},
      annChildren here deep l = .ok al → l.get? i = some (e, c) →
      ∃ ac, al.get? i = some (e, ac) ∧ annNode here deep (some e) c = .ok ac := by
  intro l
  induction l with
  | nil => intro al i e c h hg; cases hg
  | cons hd tl ih =>
    intro al i e c h hg
    rcases hd with ⟨e0, c0⟩
    simp only [annChildren] at h
    rcases h1 : annNode here deep (some e0) c0 with _ | ac0 <;> rw [h1] at h
    · cases h
    · rcases h2 : annChildren here deep tl with _ | acs <;> rw [h2] at h
      · cases h
      · cases h
        match i with
        | 0 =>
          simp only [List.get?] at hg ⊢
          cases hg
          exact ⟨ac0, rfl, h1⟩
        | Nat.succ j =>
          simp only [List.get?] at hg ⊢
          exact ih h2 hg

mutual

theorem annNode_errFree (here deep : List Rule) (edge : Option String) (t : NNode)
    (h1 : errFreeL here = true) (h2 : errFreeL deep = true) :
    ∃ a, annNode here deep edge t = .ok a := by
  match t with
  | .mk k tok l c children =>
    have hhd : errFreeL (here ++ deep) = true := by
      simp [errFreeL_append, h1, h2]
    obtain ⟨rs, cs, ds, hap, hcs, hds⟩ := applyRules_errFree k edge (here ++ deep) hhd
    have hdeep : errFreeL (deep ++ ds) = true := by
      simp [errFreeL_append, h2, hds]
    obtain ⟨acs, hacs⟩ := annChildren_errFree cs (deep ++ ds) children hcs hdeep
    exact ⟨ANode.mk k tok l c (dedupRoles [] rs) acs, by simp only [annNode, hap, hacs]⟩
termination_by sizeOf t

theorem annChildren_errFree (here deep : List Rule) (l : List (String × NNode))
    (h1 : errFreeL here = true) (h2 : errFreeL deep = true) :
    ∃ al, annChildren here deep l = .ok al := by
  match l with
  | [] => exact ⟨[], rfl⟩
  | (e, c) :: rest =>
    obtain ⟨ac, hac⟩ := annNode_errFree here deep (some e) c h1 h2
    obtain ⟨acs, hacs⟩ := annChildren_errFree here deep rest h1 h2
    exact ⟨(e, ac) :: acs, by simp only [annChildren, hac, hacs]⟩
termination_by sizeOf l

end

/-- A strict subnode of an annotated tree is itself annotated, under a
descendants environment extending the one at its parent. -/
theorem annNode_sub :
    ∀ (p : List Nat) {here deep : List Rule} {edge : Option String} {t : NNode}
      {a : ANode} {i : Nat} {e : String} {sub : NNode},
      annNode here deep edge t = .ok a →
      getSubN t i p = some (e, sub) →
      ∃ here2 deep2 asub, getSubA a i p = some (e, asub) ∧
        annNode here2 deep2 (some e) sub = .ok asub ∧ deep ⊆ deep2 := by
  intro p
  induction p with
  | nil =>
    intro here deep edge t a i e sub h hg
    rcases t with ⟨k, tok, l, c, children⟩
    obtain ⟨rs, cs, ds, acs, hap, hac, rfl⟩ := annNode_ok_elim h
    simp only [getSubN, NNode.children] at hg
    obtain ⟨ac, hgi, hann⟩ := annChildren_get hac hg
    exact ⟨cs, deep ++ ds, ac, by simp only [getSubA, ANode.children, hgi], hann,
      List.subset_append_left _ _⟩
  | cons j p2 ih =>
    intro here deep edge t a i e sub h hg
    rcases t with ⟨k, tok, l, c, children⟩
    obtain ⟨rs, cs, ds, acs, hap, hac, rfl⟩ := annNode_ok_elim h
    simp only [getSubN, NNode.children] at hg
    rcases hci : children.get? i with _ | ⟨⟨e0, c0⟩⟩ <;> rw [hci] at hg
    · cases hg
    · obtain ⟨ac, hgi, hann⟩ := annChildren_get hac hci
      obtain ⟨h2, d2, asub, hga, hanns, hsub⟩ := ih hann hg
      refine ⟨h2, d2, asub, ?_, hanns, (List.subset_append_left deep ds).trans hsub⟩
      simp only [getSubA, ANode.children, hgi, hga]

/-! Lemmas about the root rule of `AnnotationRules`. -/

/-- A successful annotation forces a `Module` root; the whole descendants
scope is then opened over the root's children. -/
theorem annotate_ok_root {k : String} {tok : Option String} {l c : Option Nat}
    {children : List (String × NNode)} {a : ANode}
    (h : annotate AnnotationRules (.mk k tok l c children) = .ok a) :
    k = "Module" ∧
    ∃ acs, annChildren [] moduleDescRules children = .ok acs ∧
      a = .mk k tok l c [.File, .Module] acs := by
  by_cases hk : k = "Module"
  · subst hk
    have hap : applyRules "Module" none ([AnnotationRules] ++ []) =
        .ok ([.File, .Module], [], moduleDescRules) := rfl
    have hded : dedupRoles [] [Role.File, Role.Module] = [Role.File, Role.Module] := rfl
    refine ⟨rfl, ?_⟩
    simp only [annotate, annNode, hap, hded, List.nil_append] at h
    split at h
    next => cases h
    next acs heq =>
      cases h
      exact ⟨acs, heq, rfl⟩
  · exfalso
    have hbeq : (k == "Module") = false := by simp [hk]
    have herr : annotate AnnotationRules (.mk k tok l c children) =
        .error "root must be uast.Module" := by
      simp [annotate, annNode, applyRules, applyRule, AnnotationRules, rootErrorRule,
        moduleRule, On, Rule.Self, Rule.Roles, Rule.Error, Rule.Descendants, matchPred, hbeq]
    rw [herr] at h
    cases h

/-- Any strict subnode of a successfully annotated tree is annotated in an
environment containing the whole `Module` descendants scope. -/
theorem annotate_sub {t : NNode} {a : ANode} {i : Nat} {p : List Nat}
    {e : String} {sub : NNode}
    (h : annotate AnnotationRules t = .ok a)
    (hg : getSubN t i p = some (e, sub)) :
    ∃ here2 deep2 asub, getSubA a i p = some (e, asub) ∧
      annNode here2 deep2 (some e) sub = .ok asub ∧
      moduleDescRules ⊆ here2 ++ deep2 := by
  rcases t with ⟨k, tok, l, c, children⟩
  obtain ⟨hk, acs, hac, rfl⟩ := annotate_ok_root h
  match p with
  | [] =>
    simp only [getSubN, NNode.children] at hg
    obtain ⟨ac, hgi, hann⟩ := annChildren_get hac hg
    exact ⟨[], moduleDescRules, ac, by simp only [getSubA, ANode.children, hgi], hann,
      by simp⟩
  | j :: p2 =>
    simp only [getSubN, NNode.children] at hg
    rcases hci : children.get? i with _ | ⟨⟨e0, c0⟩⟩ <;> rw [hci] at hg
    · cases hg
    · obtain ⟨ac, hgi, hann⟩ := annChildren_get hac hci
      obtain ⟨h2, d2, asub, hga, hanns, hsub⟩ := annNode_sub p2 hann hg
      refine ⟨h2, d2, asub, ?_, hanns, fun x hx => List.mem_append.mpr (Or.inr (hsub hx))⟩
      simp only [getSubA, ANode.children, hgi, hga]

/-! Role-contribution lemmas. -/

/-- A rule of the active environment that matches a node puts its roles on
that node. -/
theorem annNode_roles_mem {here deep : List Rule} {edge : Option String}
    {t : NNode} {a : ANode} {r : Rule} {x : Role}
    (h : annNode here deep edge t = .ok a) (hr : r ∈ here ++ deep)
    (hm : matchPred r.getPred (NNode.kind t) edge = true)
    (hx : x ∈ r.getRoles) : x ∈ ANode.roles a := by
  rcases t with ⟨k, tok, l, c, children⟩
  obtain ⟨rs, cs, ds, acs, hap, hac, rfl⟩ := annNode_ok_elim h
  obtain ⟨h1, _, _⟩ := applyRules_mem _ _ _ _ _ _ _ hap hr (by simpa [NNode.kind] using hm)
  simp only [ANode.roles]
  exact (dedupRoles_mem rs [] x).mpr ⟨h1 hx, by simp⟩

/-- The children scope of a rule matched at a node is active at each of the
node's immediate children. -/
theorem annNode_child_rule {here deep : List Rule} {edge : Option String}
    {t : NNode} {a : ANode} {r : Rule} {j : Nat} {e2 : String} {c2 : NNode}
    (h : annNode here deep edge t = .ok a) (hr : r ∈ here ++ deep)
    (hm : matchPred r.getPred (NNode.kind t) edge = true)
    (hj : (NNode.children t).get? j = some (e2, c2)) :
    ∃ here2 deep2 ac, (ANode.children a).get? j = some (e2, ac) ∧
      annNode here2 deep2 (some e2) c2 = .ok ac ∧ r.getChild ⊆ here2 ++ deep2 := by
  rcases t with ⟨k, tok, l, c, children⟩
  obtain ⟨rs, cs, ds, acs, hap, hac, rfl⟩ := annNode_ok_elim h
  obtain ⟨_, h2, _⟩ := applyRules_mem _ _ _ _ _ _ _ hap hr (by simpa [NNode.kind] using hm)
  simp only [NNode.children] at hj
  obtain ⟨ac, hgi, hann⟩ := annChildren_get hac hj
  exact ⟨cs, deep ++ ds, ac, by simpa [ANode.children] using hgi, hann,
    fun x hx => List.mem_append.mpr (Or.inl (h2 hx))⟩

/-! Frame lemmas: annotation only adds information. -/

mutual

theorem annNode_strip (here deep : List Rule) (edge : Option String) (t : NNode)
    (a : ANode) (h : annNode here deep edge t = .ok a) : stripRoles a = t := by
  match t with
  | .mk k tok l c children =>
    obtain ⟨rs, cs, ds, acs, hap, hac, rfl⟩ := annNode_ok_elim h
    simp only [stripRoles]
    rw [annChildren_strip cs (deep ++ ds) children acs hac]
termination_by sizeOf t

theorem annChildren_strip (here deep : List Rule) (l : List (String × NNode))
    (al : List (String × ANode)) (h : annChildren here deep l = .ok al) :
    stripRolesL al = l := by
  match l with
  | [] =>
    cases h
    rfl
  | (e, c) :: rest =>
    simp only [annChildren] at h
    split at h
    next => cases h
    next ac hac =>
      split at h
      next => cases h
      next acs hacs =>
        cases h
        simp only [stripRolesL]
        rw [annNode_strip here deep (some e) c ac hac,
          annChildren_strip here deep rest acs hacs]
termination_by sizeOf l

end

mutual

theorem annNode_nodup (here deep : List Rule) (edge : Option String) (t : NNode)
    (a : ANode) (h : annNode here deep edge t = .ok a) :
    ∀ rs0 ∈ preRolesA a, rs0.Nodup := by
  match t with
  | .mk k tok l c children =>
    obtain ⟨rs, cs, ds, acs, hap, hac, rfl⟩ := annNode_ok_elim h
    intro rs0 h0
    simp only [preRolesA, List.mem_cons] at h0
    rcases h0 with h0 | h0
    · exact h0 ▸ dedupRoles_nodup rs []
    · exact annChildren_nodup cs (deep ++ ds) children acs hac rs0 h0
termination_by sizeOf t

theorem annChildren_nodup (here deep : List Rule) (l : List (String × NNode))
    (al : List (String × ANode)) (h : annChildren here deep l = .ok al) :
    ∀ rs0 ∈ preRolesAL al, rs0.Nodup := by
  match l with
  | [] =>
    cases h
    intro rs0 h0
    cases h0
  | (e, c) :: rest =>
    simp only [annChildren] at h
    split at h
    next => cases h
    next ac hac =>
      split at h
      next => cases h
      next acs hacs =>
        cases h
        intro rs0 h0
        simp only [preRolesAL, List.mem_append] at h0
        rcases h0 with h0 | h0
        · exact annNode_nodup here deep (some e) c ac hac rs0 h0
        · exact annChildren_nodup here deep rest acs hacs rs0 h0
termination_by sizeOf l

end

/-! Unmatched nodes and total success on error-free scopes. -/

/-- A scope in which no rule matches contributes nothing. -/
theorem applyRules_nomatch (k : String) (e : Option String) :
    ∀ (rules : List Rule), (∀ r ∈ rules, matchPred r.getPred k e = false) →
      applyRules k e rules = .ok ([], [], []) := by
  intro rules
  induction rules with
  | nil => intro _; rfl
  | cons hd tl ih =>
    intro hno
    rcases hd with ⟨p, roles, err, s, c, d⟩
    have hm : matchPred p k e = false := by
      simpa [Rule.getPred] using hno _ (List.mem_cons_self _ _)
    simp [applyRules, applyRule, hm, Bool.false_eq_true, if_false,
      ih fun r hr => hno r (List.mem_cons_of_mem _ hr)]

theorem errFree_moduleDescRules : errFreeL moduleDescRules = true := rfl

/-- A tree whose root kind is not `Module` is rejected with the structural
error of the root-validation rule. -/
theorem annotate_root_error {k : String} {tok : Option String} {l c : Option Nat}
    {children : List (String × NNode)} (hk : k ≠ "Module") :
    annotate AnnotationRules (.mk k tok l c children) =
      .error "root must be uast.Module" := by
  have hbeq : (k == "Module") = false := by simp [hk]
  simp [annotate, annNode, applyRules, applyRule, AnnotationRules, rootErrorRule,
    moduleRule, On, Rule.Self, Rule.Roles, Rule.Error, Rule.Descendants, matchPred, hbeq]

/-- A tree whose root kind is `Module` is always annotated successfully. -/
theorem annotate_module_ok {tok : Option String} {l c : Option Nat}
    {children : List (String × NNode)} :
    ∃ a, annotate AnnotationRules (.mk "Module" tok l c children) = .ok a := by
  obtain ⟨acs, hacs⟩ :=
    annChildren_errFree [] moduleDescRules children rfl errFree_moduleDescRules
  have hap : applyRules "Module" none ([AnnotationRules] ++ []) =
      .ok ([.File, .Module], [], moduleDescRules) := rfl
  exact ⟨ANode.mk "Module" tok l c (dedupRoles [] [.File, .Module]) acs,
    by simp only [annotate, annNode, hap, List.nil_append, hacs]⟩

/-! Membership of the named rules in the descendants scope. -/

theorem binOpRule_mem : binOpRule ∈ moduleDescRules :=
  List.get?_mem (n := 0) rfl

theorem andRule_mem : andRule ∈ moduleDescRules :=
  List.get?_mem (n := 24) rfl

theorem orRule_mem : orRule ∈ moduleDescRules :=
  List.get?_mem (n := 25) rfl

theorem notRule_mem : notRule ∈ moduleDescRules :=
  List.get?_mem (n := 26) rfl

theorem sameLineNoopsRule_mem : sameLineNoopsRule ∈ moduleDescRules :=
  List.get?_mem (n := 58) rfl

theorem previousNoopsRule_mem : previousNoopsRule ∈ moduleDescRules :=
  List.get?_mem (n := 59) rfl

theorem remainderNoopsRule_mem : remainderNoopsRule ∈ moduleDescRules :=
  List.get?_mem (n := 60) rfl

theorem yieldRule1_mem : yieldRule1 ∈ moduleDescRules :=
  List.get?_mem (n := 104) rfl

theorem yieldRule2_mem : yieldRule2 ∈ moduleDescRules :=
  List.get?_mem (n := 106) rfl

/-! The claims. -/

/-- C1: for every native tree whose root node's kind is not `Module`,
`annotate(AnnotationRules, tree)` returns the structural error
"root must be uast.Module" and no tree; for a tree whose root kind is
`Module` this error rule does not fire and a tree is returned. -/
theorem claim1_root_validation (t : NNode) :
    (NNode.kind t ≠ "Module" →
      annotate AnnotationRules t = .error "root must be uast.Module") ∧
    (NNode.kind t = "Module" → ∃ a, annotate AnnotationRules t = .ok a) := by
  rcases t with ⟨k, tok, l, c, children⟩
  constructor
  · intro hk
    exact annotate_root_error (by simpa [NNode.kind] using hk)
  · intro hk
    have hk2 : k = "Module" := by simpa [NNode.kind] using hk
    subst hk2
    exact annotate_module_ok

set_option maxRecDepth 100000 in
theorem claim1_witness :
    (NNode.kind (NNode.mk "Expression" none none none []) ≠ "Module" ∧
      annotate AnnotationRules (.mk "Expression" none none none []) =
        .error "root must be uast.Module") ∧
    (NNode.kind (NNode.mk "Module" none none none []) = "Module" ∧
      ∃ a, annotate AnnotationRules (.mk "Module" none none none []) = .ok a) :=
  ⟨⟨by decide, (claim1_root_validation _).1 (by decide)⟩,
   ⟨rfl, (claim1_root_validation _).2 rfl⟩⟩

/-- C2: every node of kind `BinOp` matched under the `Module` descendants
scope receives the `Binary` role, its child at field role "op" the
`Operator` role, its child at "left" the `Left` role, and its child at
"right" the `Right` role. -/
theorem claim2_binop_roles {t : NNode} {a : ANode} {i : Nat} {p : List Nat}
    {e : String} {sub : NNode}
    (hann : annotate AnnotationRules t = .ok a)
    (hsub : getSubN t i p = some (e, sub))
    (hkind : NNode.kind sub = "BinOp") :
    ∃ asub, getSubA a i p = some (e, asub) ∧ Role.Binary ∈ ANode.roles asub ∧
      (∀ j c2, (NNode.children sub).get? j = some ("op", c2) →
        ∃ ac, (ANode.children asub).get? j = some ("op", ac) ∧
          Role.Operator ∈ ANode.roles ac) ∧
      (∀ j c2, (NNode.children sub).get? j = some ("left", c2) →
        ∃ ac, (ANode.children asub).get? j = some ("left", ac) ∧
          Role.Left ∈ ANode.roles ac) ∧
      (∀ j c2, (NNode.children sub).get? j = some ("right", c2) →
        ∃ ac, (ANode.children asub).get? j = some ("right", ac) ∧
          Role.Right ∈ ANode.roles ac) := by
  obtain ⟨h2, d2, asub, hga, hannsub, hmod⟩ := annotate_sub hann hsub
  have hbin : binOpRule ∈ h2 ++ d2 := hmod binOpRule_mem
  have hm : matchPred binOpRule.getPred (NNode.kind sub) (some e) = true := by
    rw [hkind]; rfl
  refine ⟨asub, hga, annNode_roles_mem hannsub hbin hm (by decide), ?_, ?_, ?_⟩
  · intro j c2 hj
    obtain ⟨h3, d3, ac, hgj, hannc, hcsub⟩ := annNode_child_rule hannsub hbin hm hj
    have hop : binOpOpRule ∈ h3 ++ d3 := hcsub (List.get?_mem (n := 0) rfl)
    exact ⟨ac, hgj, annNode_roles_mem hannc hop rfl (by decide)⟩
  · intro j c2 hj
    obtain ⟨h3, d3, ac, hgj, hannc, hcsub⟩ := annNode_child_rule hannsub hbin hm hj
    have hop : binOpLeftRule ∈ h3 ++ d3 := hcsub (List.get?_mem (n := 1) rfl)
    exact ⟨ac, hgj, annNode_roles_mem hannc hop rfl (by decide)⟩
  · intro j c2 hj
    obtain ⟨h3, d3, ac, hgj, hannc, hcsub⟩ := annNode_child_rule hannsub hbin hm hj
    have hop : binOpRightRule ∈ h3 ++ d3 := hcsub (List.get?_mem (n := 2) rfl)
    exact ⟨ac, hgj, annNode_roles_mem hannc hop rfl (by decide)⟩

set_option maxRecDepth 100000 in
theorem claim2_witness :
    getSubN exBinOpTree 0 [] = some ("body", exBinOpSub) ∧
    NNode.kind exBinOpSub = "BinOp" ∧
    ∃ out, annotate AnnotationRules exBinOpTree = .ok out ∧
      ∃ asub, getSubA out 0 [] = some ("body", asub) ∧
        Role.Binary ∈ ANode.roles asub ∧
        (∀ j c2, (NNode.children exBinOpSub).get? j = some ("op", c2) →
          ∃ ac, (ANode.children asub).get? j = some ("op", ac) ∧
            Role.Operator ∈ ANode.roles ac) ∧
        (∀ j c2, (NNode.children exBinOpSub).get? j = some ("left", c2) →
          ∃ ac, (ANode.children asub).get? j = some ("left", ac) ∧
            Role.Left ∈ ANode.roles ac) ∧
        (∀ j c2, (NNode.children exBinOpSub).get? j = some ("right", c2) →
          ∃ ac, (ANode.children asub).get? j = some ("right", ac) ∧
            Role.Right ∈ ANode.roles ac) := by
  refine ⟨rfl, rfl, _, rfl, ?_⟩
  exact claim2_binop_roles (t := exBinOpTree) rfl rfl rfl

/-- C3: in a tree with a `Module` root, every comment node — a node of kind
`SameLineNoops`, or a child at field role "lines" of a
`PreviousNoops`/`RemainderNoops` node — receives the `Comment` role at any
depth, the comment rules being in the descendants scope of the `Module`
rule. -/
theorem claim3_comment_depth {t : NNode} {a : ANode} {i : Nat} {p : List Nat}
    {e : String} {sub : NNode}
    (hann : annotate AnnotationRules t = .ok a)
    (hsub : getSubN t i p = some (e, sub)) :
    (NNode.kind sub = "SameLineNoops" →
      ∃ asub, getSubA a i p = some (e, asub) ∧ Role.Comment ∈ ANode.roles asub) ∧
    ((NNode.kind sub = "PreviousNoops" ∨ NNode.kind sub = "RemainderNoops") →
      ∀ j c2, (NNode.children sub).get? j = some ("lines", c2) →
        ∃ asub ac, getSubA a i p = some (e, asub) ∧
          (ANode.children asub).get? j = some ("lines", ac) ∧
          Role.Comment ∈ ANode.roles ac) := by
  obtain ⟨h2, d2, asub, hga, hannsub, hmod⟩ := annotate_sub hann hsub
  constructor
  · intro hkind
    have hr : sameLineNoopsRule ∈ h2 ++ d2 := hmod sameLineNoopsRule_mem
    have hm : matchPred sameLineNoopsRule.getPred (NNode.kind sub) (some e) = true := by
      rw [hkind]; rfl
    exact ⟨asub, hga, annNode_roles_mem hannsub hr hm (by decide)⟩
  · intro hkind j c2 hj
    rcases hkind with hkind | hkind
    · have hr : previousNoopsRule ∈ h2 ++ d2 := hmod previousNoopsRule_mem
      have hm : matchPred previousNoopsRule.getPred (NNode.kind sub) (some e) = true := by
        rw [hkind]; rfl
      obtain ⟨h3, d3, ac, hgj, hannc, hcsub⟩ := annNode_child_rule hannsub hr hm hj
      have hlines : noopLinesRule ∈ h3 ++ d3 := hcsub (List.get?_mem (n := 0) rfl)
      exact ⟨asub, ac, hga, hgj, annNode_roles_mem hannc hlines rfl (by decide)⟩
    · have hr : remainderNoopsRule ∈ h2 ++ d2 := hmod remainderNoopsRule_mem
      have hm : matchPred remainderNoopsRule.getPred (NNode.kind sub) (some e) = true := by
        rw [hkind]; rfl
      obtain ⟨h3, d3, ac, hgj, hannc, hcsub⟩ := annNode_child_rule hannsub hr hm hj
      have hlines : noopLinesRule ∈ h3 ++ d3 := hcsub (List.get?_mem (n := 0) rfl)
      exact ⟨asub, ac, hga, hgj, annNode_roles_mem hannc hlines rfl (by decide)⟩

set_option maxRecDepth 100000 in
theorem claim3_witness :
    getSubN exNoopsTree 1 [] =
      some ("extra", .mk "SameLineNoops" none none none []) ∧
    getSubN exNoopsTree 0 [0] = some ("body", exPrevNoops) ∧
    ∃ out, annotate AnnotationRules exNoopsTree = .ok out ∧
      (∃ asub, getSubA out 1 [] = some ("extra", asub) ∧
        Role.Comment ∈ ANode.roles asub) ∧
      (∃ asub ac, getSubA out 0 [0] = some ("body", asub) ∧
        (ANode.children asub).get? 0 = some ("lines", ac) ∧
        Role.Comment ∈ ANode.roles ac) := by
  refine ⟨rfl, rfl, _, rfl, ?_, ?_⟩
  · exact (claim3_comment_depth (t := exNoopsTree) (i := 1) (p := []) rfl rfl).1 rfl
  · exact (claim3_comment_depth (t := exNoopsTree) (i := 0) (p := [0]) rfl rfl).2
      (Or.inl rfl) 0 exComment rfl

/-- C4: rule matching for role attachment is non-exclusive — every matching
rule of the active environment contributes its roles — and in particular a
`Yield` node under the `Module` descendants scope receives the union of the
roles of both `Yield` rules: Return, Statement, Incomplete, Literal, List,
Expression. -/
theorem claim4_nonexclusive :
    (∀ (here deep : List Rule) (edge : Option String) (t : NNode) (a : ANode)
       (r : Rule) (x : Role),
       annNode here deep edge t = .ok a → r ∈ here ++ deep →
       matchPred r.getPred (NNode.kind t) edge = true → x ∈ r.getRoles →
       x ∈ ANode.roles a) ∧
    (∀ (t : NNode) (a : ANode) (i : Nat) (p : List Nat) (e : String) (sub : NNode),
       annotate AnnotationRules t = .ok a → getSubN t i p = some (e, sub) →
       NNode.kind sub = "Yield" →
       ∃ asub, getSubA a i p = some (e, asub) ∧
         Role.Return ∈ ANode.roles asub ∧ Role.Statement ∈ ANode.roles asub ∧
         Role.Incomplete ∈ ANode.roles asub ∧ Role.Literal ∈ ANode.roles asub ∧
         Role.List ∈ ANode.roles asub ∧ Role.Expression ∈ ANode.roles asub) := by
  constructor
  · intro here deep edge t a r x h hr hm hx
    exact annNode_roles_mem h hr hm hx
  · intro t a i p e sub hann hsub hkind
    obtain ⟨h2, d2, asub, hga, hannsub, hmod⟩ := annotate_sub hann hsub
    have hy1 : yieldRule1 ∈ h2 ++ d2 := hmod yieldRule1_mem
    have hy2 : yieldRule2 ∈ h2 ++ d2 := hmod yieldRule2_mem
    have hm1 : matchPred yieldRule1.getPred (NNode.kind sub) (some e) = true := by
      rw [hkind]; rfl
    have hm2 : matchPred yieldRule2.getPred (NNode.kind sub) (some e) = true := by
      rw [hkind]; rfl
    exact ⟨asub, hga,
      annNode_roles_mem hannsub hy1 hm1 (by decide),
      annNode_roles_mem hannsub hy1 hm1 (by decide),
      annNode_roles_mem hannsub hy1 hm1 (by decide),
      annNode_roles_mem hannsub hy2 hm2 (by decide),
      annNode_roles_mem hannsub hy2 hm2 (by decide),
      annNode_roles_mem hannsub hy2 hm2 (by decide)⟩

set_option maxRecDepth 100000 in
theorem claim4_witness :
    getSubN exYieldTree 0 [0] =
      some ("value", .mk "Yield" none none none []) ∧
    ∃ out, annotate AnnotationRules exYieldTree = .ok out ∧
      ∃ asub, getSubA out 0 [0] = some ("value", asub) ∧
        Role.Return ∈ ANode.roles asub ∧ Role.Statement ∈ ANode.roles asub ∧
        Role.Incomplete ∈ ANode.roles asub ∧ Role.Literal ∈ ANode.roles asub ∧
        Role.List ∈ ANode.roles asub ∧ Role.Expression ∈ ANode.roles asub := by
  refine ⟨rfl, _, rfl, ?_⟩
  exact (claim4_nonexclusive).2 exYieldTree _ 0 [0] "value" _ rfl rfl rfl

/-- C8: a node matched by no rule of its active environment keeps an empty
RoleSet, and annotation of any tree with a `Module` root always returns a
tree — a StructuralError can only come from an explicit error-rule match,
and the only error rule of `AnnotationRules` is the root-validation rule. -/
theorem claim8_unmatched_silent :
    (∀ (here deep : List Rule) (edge : Option String) (k : String)
       (tok : Option String) (l c : Option Nat)
       (children : List (String × NNode)) (a : ANode),
       annNode here deep edge (.mk k tok l c children) = .ok a →
       (∀ r ∈ here ++ deep, matchPred r.getPred k edge = false) →
       ANode.roles a = []) ∧
    (∀ t : NNode, NNode.kind t = "Module" →
       ∃ a, annotate AnnotationRules t = .ok a) := by
  constructor
  · intro here deep edge k tok l c children a h hno
    obtain ⟨rs, cs, ds, acs, hap, hac, rfl⟩ := annNode_ok_elim h
    rw [applyRules_nomatch k edge (here ++ deep) hno] at hap
    cases hap
    rfl
  · intro t hk
    rcases t with ⟨k, tok, l, c, children⟩
    have hk2 : k = "Module" := by simpa [NNode.kind] using hk
    subst hk2
    exact annotate_module_ok

set_option maxRecDepth 100000 in
theorem claim8_witness :
    (∃ a, annNode [] moduleDescRules (some "zz") (.mk "Zzz" none none none []) = .ok a ∧
      ANode.roles a = []) ∧
    (∃ a, annotate AnnotationRules
      (.mk "Module" none none none [("x", .mk "Qqq" none none none [])]) = .ok a) := by
  constructor
  · refine ⟨_, rfl, ?_⟩
    exact (claim8_unmatched_silent).1 [] moduleDescRules (some "zz") "Zzz"
      none none none [] _ rfl (by decide)
  · exact (claim8_unmatched_silent).2 _ rfl

/-- C10: `And`, `Or` and `Not` nodes under the `Module` descendants scope do
receive the `Binary` role (together with Operator, Boolean and
And/Or/Not respectively), the adjacent rule-table comment notwithstanding. -/
theorem claim10_boolean_ops {t : NNode} {a : ANode} {i : Nat} {p : List Nat}
    {e : String} {sub : NNode}
    (hann : annotate AnnotationRules t = .ok a)
    (hsub : getSubN t i p = some (e, sub)) :
    (NNode.kind sub = "And" →
      ∃ asub, getSubA a i p = some (e, asub) ∧
        Role.Binary ∈ ANode.roles asub ∧ Role.Operator ∈ ANode.roles asub ∧
        Role.Boolean ∈ ANode.roles asub ∧ Role.And ∈ ANode.roles asub) ∧
    (NNode.kind sub = "Or" →
      ∃ asub, getSubA a i p = some (e, asub) ∧
        Role.Binary ∈ ANode.roles asub ∧ Role.Operator ∈ ANode.roles asub ∧
        Role.Boolean ∈ ANode.roles asub ∧ Role.Or ∈ ANode.roles asub) ∧
    (NNode.kind sub = "Not" →
      ∃ asub, getSubA a i p = some (e, asub) ∧
        Role.Binary ∈ ANode.roles asub ∧ Role.Operator ∈ ANode.roles asub ∧
        Role.Boolean ∈ ANode.roles asub ∧ Role.Not ∈ ANode.roles asub) := by
  obtain ⟨h2, d2, asub, hga, hannsub, hmod⟩ := annotate_sub hann hsub
  refine ⟨?_, ?_, ?_⟩
  · intro hkind
    have hr : andRule ∈ h2 ++ d2 := hmod andRule_mem
    have hm : matchPred andRule.getPred (NNode.kind sub) (some e) = true := by
      rw [hkind]; rfl
    exact ⟨asub, hga, annNode_roles_mem hannsub hr hm (by decide),
      annNode_roles_mem hannsub hr hm (by decide),
      annNode_roles_mem hannsub hr hm (by decide),
      annNode_roles_mem hannsub hr hm (by decide)⟩
  · intro hkind
    have hr : orRule ∈ h2 ++ d2 := hmod orRule_mem
    have hm : matchPred orRule.getPred (NNode.kind sub) (some e) = true := by
      rw [hkind]; rfl
    exact ⟨asub, hga, annNode_roles_mem hannsub hr hm (by decide),
      annNode_roles_mem hannsub hr hm (by decide),
      annNode_roles_mem hannsub hr hm (by decide),
      annNode_roles_mem hannsub hr hm (by decide)⟩
  · intro hkind
    have hr : notRule ∈ h2 ++ d2 := hmod notRule_mem
    have hm : matchPred notRule.getPred (NNode.kind sub) (some e) = true := by
      rw [hkind]; rfl
    exact ⟨asub, hga, annNode_roles_mem hannsub hr hm (by decide),
      annNode_roles_mem hannsub hr hm (by decide),
      annNode_roles_mem hannsub hr hm (by decide),
      annNode_roles_mem hannsub hr hm (by decide)⟩

set_option maxRecDepth 100000 in
theorem claim10_witness :
    getSubN exBoolTree 0 [0] = some ("op", .mk "And" none none none []) ∧
    getSubN exBoolTree 0 [1] = some ("values", .mk "Or" none none none []) ∧
    getSubN exBoolTree 0 [2] = some ("x", .mk "Not" none none none []) ∧
    ∃ out, annotate AnnotationRules exBoolTree = .ok out ∧
      (∃ asub, getSubA out 0 [0] = some ("op", asub) ∧
        Role.Binary ∈ ANode.roles asub ∧ Role.Operator ∈ ANode.roles asub ∧
        Role.Boolean ∈ ANode.roles asub ∧ Role.And ∈ ANode.roles asub) ∧
      (∃ asub, getSubA out 0 [1] = some ("values", asub) ∧
        Role.Binary ∈ ANode.roles asub ∧ Role.Operator ∈ ANode.roles asub ∧
        Role.Boolean ∈ ANode.roles asub ∧ Role.Or ∈ ANode.roles asub) ∧
      (∃ asub, getSubA out 0 [2] = some ("x", asub) ∧
        Role.Binary ∈ ANode.roles asub ∧ Role.Operator ∈ ANode.roles asub ∧
        Role.Boolean ∈ ANode.roles asub ∧ Role.Not ∈ ANode.roles asub) := by
  refine ⟨rfl, rfl, rfl, _, rfl, ?_, ?_, ?_⟩
  · exact (claim10_boolean_ops (t := exBoolTree) (i := 0) (p := [0]) rfl rfl).1 rfl
  · exact (claim10_boolean_ops (t := exBoolTree) (i := 0) (p := [1]) rfl rfl).2.1 rfl
  · exact (claim10_boolean_ops (t := exBoolTree) (i := 0) (p := [2]) rfl rfl).2.2 rfl

/-- C9: annotation only adds information: the output tree erases back to
the input tree (same parent/child shape, kinds, tokens and position hints
unchanged), and every attached role list is duplicate-free. -/
theorem claim9_frame {t : NNode} {a : ANode}
    (h : annotate AnnotationRules t = .ok a) :
    stripRoles a = t ∧ ∀ rs ∈ preRolesA a, rs.Nodup :=
  ⟨annNode_strip _ _ _ _ _ h, annNode_nodup _ _ _ _ _ h⟩

set_option maxRecDepth 100000 in
theorem claim9_witness :
    ∃ out, annotate AnnotationRules exNoopsTree = .ok out ∧
      stripRoles out = exNoopsTree ∧ ∀ rs ∈ preRolesA out, rs.Nodup := by
  refine ⟨_, rfl, ?_⟩
  exact claim9_frame (t := exNoopsTree) rfl

/-! Lemmas about line/column resolution. -/

theorem lineSuffix_lt (src : List Char) :
    ∀ (l2 l1 off1 : Nat) (s1 : List Char) (off2 : Nat) (s2 : List Char),
      l1 < l2 → lineSuffix src l1 = some (off1, s1) →
      lineSuffix src l2 = some (off2, s2) →
      off1 + lineLenAt s1 + 1 ≤ off2 := by
  intro l2
  induction l2 with
  | zero =>
    intro l1 off1 s1 off2 s2 h h1 h2
    simp [lineSuffix] at h2
  | succ n ih =>
    intro l1 off1 s1 off2 s2 h h1 h2
    rcases n with _ | m
    · have hl1 : l1 = 0 := by omega
      subst hl1
      simp [lineSuffix] at h1
    · simp only [lineSuffix] at h2
      split at h2
      next => cases h2
      next off3 s3 heq =>
        split at h2
        next => cases h2
        next s4 heq2 =>
          cases h2
          rcases Nat.lt_succ_iff_lt_or_eq.mp h with h2 | h2
          · have := ih l1 off1 s1 off3 s3 h2 h1 heq
            omega
          · subst h2
            rw [h1] at heq
            cases heq
            omega

theorem resolvePos_mono {src : List Char} {l1 c1 l2 c2 o1 o2 : Nat}
    (hlex : lexLe (l1, c1) (l2, c2))
    (h1 : resolvePos src l1 c1 = some o1)
    (h2 : resolvePos src l2 c2 = some o2) : o1 ≤ o2 := by
  simp only [resolvePos] at h1 h2
  split at h1
  next => cases h1
  next off1 s1 hs1 =>
    split at h1
    next => cases h1
    next hne1 =>
      cases h1
      split at h2
      next => cases h2
      next off2 s2 hs2 =>
        split at h2
        next => cases h2
        next hne2 =>
          cases h2
          rcases hlex with hlt | ⟨heq, hc⟩
          · have hstep := lineSuffix_lt src l2 l1 off1 s1 off2 s2 hlt hs1 hs2
            have hmin : min c1 (lineLenAt s1) ≤ lineLenAt s1 := Nat.min_le_right _ _
            omega
          · simp only at heq
            subst heq
            rw [hs1] at hs2
            cases hs2
            simp only at hc
            have : min c1 (lineLenAt s1) ≤ min c2 (lineLenAt s1) :=
              min_le_min hc (Nat.le_refl _)
            omega

mutual

theorem fillNode_offsets (src : List Char) (inh : Nat) (a : ANode)
    (h : allPosValid src a = true) :
    preOffP (fillNode src inh a) =
      (prePosA a).map (fun q => (resolvePos src q.1 q.2).getD 0) := by
  match a with
  | .mk k tok line col rs children =>
    simp only [allPosValid, Bool.and_eq_true] at h
    obtain ⟨hp, hch⟩ := h
    rcases line with _ | l0
    · simp at hp
    · rcases col with _ | c0
      · simp at hp
      · simp only at hp
        rcases hr : resolvePos src l0 c0 with _ | o
        · rw [hr] at hp
          cases hp
        · simp only [fillNode, hr, preOffP, prePosA, List.map, Option.getD_some]
          rw [fillChildren_offsets src o children hch]
termination_by sizeOf a

theorem fillChildren_offsets (src : List Char) (inh : Nat)
    (l : List (String × ANode)) (h : allPosValidL src l = true) :
    preOffPL (fillChildren src inh l) =
      (prePosAL l).map (fun q => (resolvePos src q.1 q.2).getD 0) := by
  match l with
  | [] => rfl
  | (e, a) :: rest =>
    simp only [allPosValidL, Bool.and_eq_true] at h
    obtain ⟨h1, h2⟩ := h
    simp only [fillChildren, preOffPL, prePosAL, List.map_append]
    rw [fillNode_offsets src inh a h1, fillChildren_offsets src inh rest h2]
termination_by sizeOf l

end

mutual

theorem allPosValid_resolvable (src : List Char) (a : ANode)
    (h : allPosValid src a = true) :
    ∀ q ∈ prePosA a, (resolvePos src q.1 q.2).isSome = true := by
  match a with
  | .mk k tok line col rs children =>
    simp only [allPosValid, Bool.and_eq_true] at h
    obtain ⟨hp, hch⟩ := h
    intro q hq
    simp only [prePosA, List.mem_cons] at hq
    rcases hq with hq | hq
    · rcases line with _ | l0
      · simp at hp
      · rcases col with _ | c0
        · simp at hp
        · subst hq
          simpa using hp
    · exact allPosValidL_resolvable src children hch q hq
termination_by sizeOf a

theorem allPosValidL_resolvable (src : List Char) (l : List (String × ANode))
    (h : allPosValidL src l = true) :
    ∀ q ∈ prePosAL l, (resolvePos src q.1 q.2).isSome = true := by
  match l with
  | [] =>
    intro q hq
    cases hq
  | (e, a) :: rest =>
    simp only [allPosValidL, Bool.and_eq_true] at h
    obtain ⟨h1, h2⟩ := h
    intro q hq
    simp only [prePosAL, List.mem_append] at hq
    rcases hq with hq | hq
    · exact allPosValid_resolvable src a h1 q hq
    · exact allPosValidL_resolvable src rest h2 q hq
termination_by sizeOf l

end

theorem chain_offsets_of_chain_pos (src : List Char) :
    ∀ (l : List (Nat × Nat)),
      (∀ q ∈ l, (resolvePos src q.1 q.2).isSome = true) →
      List.Chain' lexLe l →
      List.Chain' (· ≤ ·) (l.map (fun q => (resolvePos src q.1 q.2).getD 0)) := by
  intro l
  induction l with
  | nil => intro _ _; simp
  | cons q rest ih =>
    intro hres hch
    rcases rest with _ | ⟨q2, rest2⟩
    · simp
    · rw [List.chain'_cons] at hch
      simp only [List.map]
      rw [List.chain'_cons]
      constructor
      · have h1 := hres q (by simp)
        have h2 := hres q2 (by simp)
        rcases hr1 : resolvePos src q.1 q.2 with _ | o1
        · rw [hr1] at h1
          cases h1
        · rcases hr2 : resolvePos src q2.1 q2.2 with _ | o2
          · rw [hr2] at h2
            cases h2
          · simp only [hr1, hr2, Option.getD]
            exact resolvePos_mono hch.1 hr1 hr2
      · have := ih (fun q3 hq3 => hres q3 (by simp [hq3])) hch.2
        simpa using this

/-! Fallback lemmas for unpositioned trees. -/

mutual

theorem fillNode_noPos (src : List Char) (inh : Nat) (a : ANode)
    (h : noPos a = true) : ∀ o ∈ preOffP (fillNode src inh a), o = inh := by
  match a with
  | .mk k tok line col rs children =>
    simp only [noPos, Bool.and_eq_true, Option.isNone_iff_eq_none] at h
    obtain ⟨⟨hl, hc⟩, hch⟩ := h
    subst hl
    subst hc
    intro o ho
    simp only [fillNode, preOffP, List.mem_cons] at ho
    rcases ho with ho | ho
    · exact ho
    · exact fillChildren_noPos src inh children hch o ho
termination_by sizeOf a

theorem fillChildren_noPos (src : List Char) (inh : Nat)
    (l : List (String × ANode)) (h : noPosL l = true) :
    ∀ o ∈ preOffPL (fillChildren src inh l), o = inh := by
  match l with
  | [] =>
    intro o ho
    cases ho
  | (e, a) :: rest =>
    simp only [noPosL, Bool.and_eq_true] at h
    obtain ⟨h1, h2⟩ := h
    intro o ho
    simp only [fillChildren, preOffPL, List.mem_append] at ho
    rcases ho with ho | ho
    · exact fillNode_noPos src inh a h1 o ho
    · exact fillChildren_noPos src inh rest h2 o ho
termination_by sizeOf l

end

/-- C5: the Transformers pipeline (annotatter with `AnnotationRules`, then
`FillOffsetFromLineCol`) is deterministic: two runs on the same native tree
and source text produce the same result — identical role sets and identical
offsets on every node. -/
theorem claim5_deterministic (t : NNode) (s : String) (r1 r2 : Except String PNode)
    (h1 : r1 = pipeline t s) (h2 : r2 = pipeline t s) :
    r1 = r2 ∧ r1.map preRolesP = r2.map preRolesP ∧
      r1.map preOffP = r2.map preOffP := by
  subst h1
  subst h2
  exact ⟨rfl, rfl, rfl⟩

theorem claim5_witness :
    pipeline exYieldTree "x\n" = pipeline exYieldTree "x\n" ∧
    (pipeline exYieldTree "x\n").map preRolesP =
      (pipeline exYieldTree "x\n").map preRolesP ∧
    (pipeline exYieldTree "x\n").map preOffP =
      (pipeline exYieldTree "x\n").map preOffP :=
  claim5_deterministic exYieldTree "x\n" _ _ rfl rfl

/-- C6: position resolution is total via ancestor fallback: a node lacking
its own line/column hint resolves to the offset inherited from its nearest
positioned ancestor, and a tree in which no node is positioned resolves
every node to the one common fallback offset 0. -/
theorem claim6_ancestor_fallback :
    (∀ (src : List Char) (inh : Nat) (a : ANode),
       ANode.line a = none ∨ ANode.col a = none →
       PNode.offset (fillNode src inh a) = inh) ∧
    (∀ (src : List Char) (inh : Nat) (k : String) (tok : Option String)
       (rs : List Role) (children : List (String × ANode)),
       fillNode src inh (.mk k tok none none rs children) =
         .mk k tok inh rs (fillChildren src inh children)) ∧
    (∀ (src : List Char) (inh : Nat) (k : String) (tok : Option String)
       (l c : Nat) (rs : List Role) (children : List (String × ANode)) (o : Nat),
       resolvePos src l c = some o →
       fillNode src inh (.mk k tok (some l) (some c) rs children) =
         .mk k tok o rs (fillChildren src o children)) ∧
    (∀ (src : List Char) (a : ANode), noPos a = true →
       ∀ o ∈ preOffP (fillNode src 0 a), o = 0) := by
  refine ⟨?_, ?_, ?_, ?_⟩
  · intro src inh a h
    rcases a with ⟨k, tok, line, col, rs, children⟩
    rcases h with h | h
    · simp only [ANode.line] at h
      subst h
      rfl
    · simp only [ANode.col] at h
      subst h
      rcases line with _ | l0
      · rfl
      · rfl
  · intro src inh k tok rs children
    rfl
  · intro src inh k tok l c rs children o hr
    simp only [fillNode, hr]
  · intro src a h o ho
    exact fillNode_noPos src 0 a h o ho

theorem claim6_witness :
    PNode.offset (fillNode [] 7 (.mk "X" none none none [] [])) = 7 ∧
    (resolvePos "ab".data 1 1 = some 1 ∧
      fillNode "ab".data 9 (.mk "X" none (some 1) (some 1) [] []) =
        .mk "X" none 1 [] []) ∧
    ∀ o ∈ preOffP (fillNode [] 0 exNoPosA), o = 0 :=
  ⟨(claim6_ancestor_fallback).1 [] 7 _ (Or.inl rfl),
   ⟨rfl, (claim6_ancestor_fallback).2.2.1 "ab".data 9 "X" none 1 1 [] [] 1 rfl⟩,
   (claim6_ancestor_fallback).2.2.2 [] exNoPosA rfl⟩

set_option maxRecDepth 100000 in
/-- C7: refutation of the unrestricted claim — the position-resolution pass
can produce a tree whose pre-order offsets decrease, when the input hints
are not pre-order monotone. -/
theorem claim7_counterexample :
    pipeline cexPosTree "a\nb" = .ok cexPosOut ∧
    ¬ List.Chain' (· ≤ ·) (preOffP cexPosOut) := by
  constructor
  · rfl
  · intro hch
    rw [show preOffP cexPosOut = [2, 0] from rfl, List.chain'_cons] at hch
    exact absurd hch.1 (by omega)

/-- C7 (amended): for trees in which every node carries a line/column hint
that resolves against the source and the pre-order sequence of hints is
lexicographically non-decreasing, the position-resolution pass yields
pre-order non-decreasing byte offsets. -/
theorem claim7_monotonic_offsets (src : List Char) (inh : Nat) (a : ANode)
    (hv : allPosValid src a = true)
    (hch : List.Chain' lexLe (prePosA a)) :
    List.Chain' (· ≤ ·) (preOffP (fillNode src inh a)) := by
  rw [fillNode_offsets src inh a hv]
  exact chain_offsets_of_chain_pos src (prePosA a)
    (allPosValid_resolvable src a hv) hch

theorem claim7_witness :
    allPosValid "ab\ncd".data exPosA = true ∧
    List.Chain' lexLe (prePosA exPosA) ∧
    List.Chain' (· ≤ ·) (preOffP (fillNode "ab\ncd".data 0 exPosA)) := by
  have hch : List.Chain' lexLe (prePosA exPosA) := by
    simp [prePosA, prePosAL, exPosA, List.chain'_cons, lexLe]
  exact ⟨rfl, hch, claim7_monotonic_offsets "ab\ncd".data 0 exPosA rfl hch⟩

end PyDriver
